import Mathlib

set_option maxRecDepth 10000
set_option maxHeartbeats 1000000

/-!
Verification development for the `gen` parser-generator toolkit.

The Go source is shallowly embedded as follows:
* Go maps become association lists (`List (κ × α)`); a map write is
  `alSet` and a map read is `alGet`.  Go iterates maps in an arbitrary
  order; wherever the iteration order can influence a result we either
  fix one insertion-order enumeration (a legal Go execution) or take
  the order as an explicit parameter (`symOrder` in `ComputeActions`,
  mirroring `for term := range grammar.symbols`).
* Go string sets (`SymbolSet`) become duplicate-free lists in insertion
  order.
* Unbounded `for changed { ... }` fixpoint loops take a fuel argument
  and return `Option`, `none` meaning the fuel ran out (the Go loops
  terminate because the sets are drawn from a finite universe, so any
  sufficiently large fuel returns `some`).
* Go `panic`/`log.Fatalf` paths also return `none`.
* Go strings are Lean `String`s; Go indexes bytes where Lean indexes
  chars, which agree on ASCII data, and Go's byte-lexicographic string
  order agrees with Lean's codepoint order on UTF-8 data.
-/

namespace Gen

/-- Association-list read, modelling a Go map read `m[k]` (`none` is Go's zero value). -/
def alGet {κ α : Type} [DecidableEq κ] : List (κ × α) → κ → Option α
  | [], _ => none
  | (k, v) :: rest, key => if k = key then some v else alGet rest key

/-- Association-list write, modelling a Go map write `m[k] = v`. -/
def alSet {κ α : Type} [DecidableEq κ] : List (κ × α) → κ → α → List (κ × α)
  | [], key, v => [(key, v)]
  | (k, w) :: rest, key, v =>
    if k = key then (key, v) :: rest else (k, w) :: alSet rest key v

/-- `SymbolSet` (lr/grammar.go): a set of symbols, as a duplicate-free list. -/
abbrev SymbolSet := List String

/-- `SymbolSet.Add` from lr/grammar.go. -/
def SymbolSet.add (ss : SymbolSet) (s : String) : SymbolSet :=
  if s ∈ ss then ss else ss ++ [s]

/-- `SymbolSet.Merge` from lr/grammar.go: add all members of `other`,
reporting whether the set grew. -/
def SymbolSet.merge (ss other : SymbolSet) : SymbolSet × Bool :=
  other.foldl
    (fun (acc : SymbolSet × Bool) x =>
      if x ∈ acc.1 then acc else (acc.1 ++ [x], true))
    (ss, false)

/-- `SymbolMap` from lr/grammar.go: a map of symbols to `SymbolSet`s. -/
abbrev SymbolMap := List (String × SymbolSet)

/-- `Rule` from lr/grammar.go. -/
structure Rule where
  symbol : String
  typ : String
  pattern : List String
  vars : List String
  code : String
deriving DecidableEq

/-- `Grammar` from lr/grammar.go (the derived symbol sets are computed
on demand by `CollectSymbols` rather than cached in the structure). -/
structure Grammar where
  rules : List Rule
deriving DecidableEq

/-- `Grammar.CollectSymbols` from lr/grammar.go, returning
`(symbols, terminals, nonterminals)`. -/
def Grammar.CollectSymbols (g : Grammar) : SymbolSet × SymbolSet × SymbolSet :=
  let nonterminals := g.rules.foldl (fun nt r => SymbolSet.add nt r.symbol) []
  let symbols0 := g.rules.foldl (fun sy r => SymbolSet.add sy r.symbol) []
  let folded := g.rules.foldl
    (fun (acc : SymbolSet × SymbolSet) r =>
      r.pattern.foldl
        (fun (acc : SymbolSet × SymbolSet) sym =>
          (SymbolSet.add acc.1 sym,
           if sym ∈ nonterminals then acc.2 else SymbolSet.add acc.2 sym))
        acc)
    (symbols0, [])
  (folded.1, folded.2, nonterminals)

/-- The grammar's symbol set, in the fixed insertion-order enumeration. -/
def Grammar.symbolsList (g : Grammar) : List String := g.CollectSymbols.1

/-- The grammar's terminal set, in the fixed insertion-order enumeration. -/
def Grammar.terminalsList (g : Grammar) : List String := g.CollectSymbols.2.1

/-- One pass of the `First` fixpoint loop (lr/grammar.go): for each
key-value pair `(s, F)` of the map, merge `first[m]` into `F` for every
member `m` of `F`, threading map updates left to right. -/
def firstPass (keys : List String) (m : SymbolMap) : SymbolMap × Bool :=
  keys.foldl
    (fun (acc : SymbolMap × Bool) s =>
      match alGet acc.1 s with
      | none => acc
      | some f =>
        let inner := f.foldl
          (fun (fc : SymbolSet × Bool) mem =>
            match alGet acc.1 mem with
            | none => fc
            | some other =>
              let merged := SymbolSet.merge fc.1 other
              (merged.1, fc.2 || merged.2))
          (f, false)
        (alSet acc.1 s inner.1, acc.2 || inner.2))
    (m, false)

/-- The `for changed := true; changed;` driver of `Grammar.First`. -/
def firstIter : Nat → SymbolMap → Option SymbolMap
  | 0, _ => none
  | fuel + 1, m =>
    let p := firstPass (m.map Prod.fst) m
    if p.2 then firstIter fuel p.1 else some p.1

/-- `Grammar.First` from lr/grammar.go: seed terminals with themselves,
seed each rule's set with the first symbol of its pattern, then iterate
until stable.  `none` models a panic on an empty pattern
(`rule.pattern[0]`) or fuel running out. -/
def Grammar.First (g : Grammar) (fuel : Nat) : Option SymbolMap :=
  if g.rules.any (fun r => r.pattern.isEmpty) then none
  else
    let seeded := g.terminalsList.foldl
      (fun (m : SymbolMap) t => alSet m t (SymbolSet.add [] t)) []
    let m0 := g.rules.foldl
      (fun (m : SymbolMap) r =>
        let set := (alGet m r.symbol).getD []
        alSet m r.symbol (SymbolSet.add set (r.pattern.headD "")))
      seeded
    firstIter fuel m0

/-- One pass of the `Follow` fixpoint loop (lr/grammar.go). -/
def followPass (g : Grammar) (first : SymbolMap) (fl : SymbolMap) : SymbolMap × Bool :=
  g.rules.foldl
    (fun (acc : SymbolMap × Bool) r =>
      (r.pattern.enum.foldl
        (fun (acc : SymbolMap × Bool) (p : Nat × String) =>
          let set := (alGet acc.1 p.2).getD []
          if p.1 + 1 < r.pattern.length then
            let nxt := r.pattern.getD (p.1 + 1) ""
            let merged := SymbolSet.merge set ((alGet first nxt).getD [])
            (alSet acc.1 p.2 merged.1, acc.2 || merged.2)
          else
            let merged := SymbolSet.merge set ((alGet acc.1 r.symbol).getD [])
            (alSet acc.1 p.2 merged.1, acc.2 || merged.2))
        acc))
    (fl, false)

/-- The `for changed := true; changed;` driver of `Grammar.Follow`. -/
def followIter (g : Grammar) (first : SymbolMap) : Nat → SymbolMap → Option SymbolMap
  | 0, _ => none
  | fuel + 1, m =>
    let p := followPass g first m
    if p.2 then followIter g first fuel p.1 else some p.1

/-- `Grammar.Follow` from lr/grammar.go: seed `follow[start] = ["$"]`,
then iterate over the rules until stable. -/
def Grammar.Follow (g : Grammar) (first : SymbolMap) (fuel : Nat) : Option SymbolMap :=
  match g.rules.head? with
  | none => none
  | some r0 => followIter g first fuel (alSet [] r0.symbol ["$"])

/-- `Item` from example/lex.go: a rule (by its index in `grammar.rules`,
mirroring the Go `*Rule` pointer identity) together with a dot position. -/
structure Item where
  ruleIdx : Nat
  pos : Nat
deriving DecidableEq

/-- `Item.NextSym` from example/lex.go: the next symbol the item would
match, `none` when the item is at the end of its pattern. -/
def Item.NextSym (g : Grammar) (it : Item) : Option String :=
  match g.rules.get? it.ruleIdx with
  | none => none
  | some r => r.pattern.get? it.pos

/-- `ItemSet` from example/lex.go, as a duplicate-free list of items in
insertion order. -/
abbrev ItemSet := List Item

/-- `ItemSet.Equals` from example/lex.go: same size and every member of
the left set is a member of the right one. -/
def ItemSet.Equals (is os : ItemSet) : Bool :=
  is.length = os.length && is.all (fun k => k ∈ os)

/-- Worklist form of `ItemSet.Closure`'s
`for changed { for item := range is { ... } }` loop: process the item at
index `i`, expanding its next symbol unless the `added` guard has seen
it, then move on.  The items appended for one symbol are the start items
of the rules whose LHS is that symbol, in rule order. -/
def closureAux (g : Grammar) : Nat → List Item → List String → Nat → List Item
  | 0, is, _, _ => is
  | fuel + 1, is, added, i =>
    match is.get? i with
    | none => is
    | some it =>
      match it.NextSym g with
      | none => closureAux g fuel is added (i + 1)
      | some sym =>
        if sym ∈ added then closureAux g fuel is added (i + 1)
        else
          let expIdxs := (List.range g.rules.length).filter
            (fun j => ((g.rules.get? j).map Rule.symbol) = some sym)
          if expIdxs.isEmpty then closureAux g fuel is added (i + 1)
          else
            let newItems := (expIdxs.map (fun j => Item.mk j 0)).filter
              (fun x => x ∉ is)
            closureAux g fuel (is ++ newItems) (sym :: added) (i + 1)

/-- `ItemSet.Closure` from example/lex.go.  The fuel bound
`|is| + |rules| + 1` exceeds the number of worklist steps, because the
`added` guard lets each nonterminal contribute its start items once. -/
def ItemSet.Closure (g : Grammar) (is : ItemSet) : ItemSet :=
  closureAux g (is.length + g.rules.length + 1) is [] 0

/-- `ItemSet.Goto` from example/lex.go: advance the dot over `x` in
every item that expects `x`, then close. -/
def ItemSet.Goto (g : Grammar) (is : ItemSet) (x : String) : ItemSet :=
  ItemSet.Closure g
    (is.filterMap (fun it =>
      match it.NextSym g with
      | some sym => if sym = x then some (Item.mk it.ruleIdx (it.pos + 1)) else none
      | none => none))

/-- `Action` from example/lex.go.  `Reduce` carries the rule's index in
`grammar.rules`, mirroring the Go `*Rule` pointer. -/
inductive Action where
  | Shift : Nat → Action
  | Reduce : Nat → Action
deriving DecidableEq

/-- One row of the `ActionTable` (a Go `map[string]Action`). -/
abbrev Row := List (String × Action)

/-- A conflict diagnostic, modelling the `traceLog.Printf` emitted by
`ComputeActions` when a reduce hits an occupied entry: the state, the
input terminal, the occupying action, and the reducing rule. -/
structure Conflict where
  state : Nat
  term : String
  prev : Action
  ruleIdx : Nat
deriving DecidableEq

/-- The state-discovery loop of `ComputeActions`
(`for i := 0; i < len(states); i++`): for each symbol of `symOrder`
(the order Go happens to iterate `grammar.symbols` in), compute the
goto set, reuse the index of an extensionally equal existing state or
append a new one, and record a `Shift`.  `none` means the fuel ran out
before the loop closed. -/
def buildStatesAux (g : Grammar) (symOrder : List String) :
    Nat → List ItemSet → List Row → Nat → Option (List ItemSet × List Row)
  | 0, _, _, _ => none
  | fuel + 1, states, rows, i =>
    match states.get? i with
    | none => some (states, rows)
    | some set =>
      let folded := symOrder.foldl
        (fun (acc : List ItemSet × Row) term =>
          let c := ItemSet.Goto g set term
          if c.isEmpty then acc
          else
            match acc.1.findIdx? (fun oset => ItemSet.Equals c oset) with
            | some j => (acc.1, alSet acc.2 term (Action.Shift j))
            | none => (acc.1 ++ [c], alSet acc.2 term (Action.Shift acc.1.length)))
        (states, [])
      buildStatesAux g symOrder fuel folded.1 (rows ++ [folded.2]) (i + 1)

/-- The body of the reduce-installation loop of `ComputeActions` for a
single `(state, terminal)` entry: on an occupied entry, append a
conflict diagnostic naming the state, the terminal and both actions;
either way the `Reduce` is written. -/
def installReduce (i : Nat) (ruleIdx : Nat) (term : String)
    (rc : Row × List Conflict) : Row × List Conflict :=
  match alGet rc.1 term with
  | some prev =>
    (alSet rc.1 term (Action.Reduce ruleIdx),
     rc.2 ++ [Conflict.mk i term prev ruleIdx])
  | none => (alSet rc.1 term (Action.Reduce ruleIdx), rc.2)

/-- The reduce phase of `ComputeActions` for one state: for every
end-item of the state, install a `Reduce` on every terminal of the
follow set of the item's rule's LHS. -/
def reduceRow (g : Grammar) (follow : SymbolMap) (i : Nat) (set : ItemSet)
    (rc : Row × List Conflict) : Row × List Conflict :=
  set.foldl
    (fun rc it =>
      match it.NextSym g with
      | some _ => rc
      | none =>
        let sym := ((g.rules.get? it.ruleIdx).map Rule.symbol).getD ""
        let f := (alGet follow sym).getD []
        f.foldl (fun rc term => installReduce i it.ruleIdx term rc) rc)
    rc

/-- The `for i, set := range states` reduce phase of `ComputeActions`,
processing states and their action rows positionally. -/
def reduceRowsAux (g : Grammar) (follow : SymbolMap) :
    Nat → List (ItemSet × Row) → List Conflict → List Row × List Conflict
  | _, [], cs => ([], cs)
  | i, (set, row) :: rest, cs =>
    let rc := reduceRow g follow i set (row, cs)
    let tail := reduceRowsAux g follow (i + 1) rest rc.2
    (rc.1 :: tail.1, tail.2)

/-- The complete reduce phase of `ComputeActions`. -/
def reducePhase (g : Grammar) (follow : SymbolMap)
    (states : List ItemSet) (rows : List Row) : List Row × List Conflict :=
  reduceRowsAux g follow 0 (states.zip rows) []

/-- `ComputeActions` from example/lex.go, also returning the canonical
state collection and the conflict diagnostics.  `symOrder` is the order
in which Go's `for term := range grammar.symbols` happens to enumerate
the symbol set; any permutation of `Grammar.symbolsList` is a possible
execution. -/
def ComputeActions (g : Grammar) (symOrder : List String) (fuel : Nat) :
    Option (List ItemSet × List Row × List Conflict) :=
  match g.rules.get? 0 with
  | none => none
  | some _ =>
    match g.First fuel with
    | none => none
    | some first =>
      match g.Follow first fuel with
      | none => none
      | some follow =>
        let s0 := ItemSet.Closure g [Item.mk 0 0]
        match buildStatesAux g symOrder fuel [s0] [] 0 with
        | none => none
        | some sr =>
          let red := reducePhase g follow sr.1 sr.2
          some (sr.1, red.1, red.2)

/-- Lexicographic comparison of char lists by codepoint, the order
`sort.Strings` uses (Go compares UTF-8 bytes; byte order and codepoint
order agree on UTF-8 data). -/
def lexLe : List Char → List Char → Bool
  | [], _ => true
  | _ :: _, [] => false
  | a :: as, b :: bs =>
    if a.toNat < b.toNat then true
    else if a.toNat = b.toNat then lexLe as bs
    else false

/-- The `≤` test of `sort.Strings`. -/
def strLe (a b : String) : Bool := lexLe a.data b.data

/-- One insertion step of the sort. -/
def insertSorted (x : String) : List String → List String
  | [] => [x]
  | y :: ys => if strLe x y then x :: y :: ys else y :: insertSorted x ys

/-- `sort.Strings` from writeTables, as an insertion sort under
`strLe`. -/
def sortStrings : List String → List String
  | [] => []
  | x :: xs => insertSorted x (sortStrings xs)

/-- The signed-integer encoding `writeTables` prints for an action:
`Shift s` as the state index, `Reduce r` as the negated rule index. -/
def encodeAction : Action → Int
  | Action.Shift s => Int.ofNat s
  | Action.Reduce r => -(Int.ofNat r)

/-- One row of the `%sActions` table emitted by `writeTables`: the
row's keys in sorted order, each paired with its encoded action. -/
def writeActionRow (row : Row) : List (String × Int) :=
  (sortStrings (row.map Prod.fst)).filterMap
    (fun k => (alGet row k).map (fun a => (k, encodeAction a)))

/-- The `%sActions` table emitted by `writeTables` from example/lex.go:
one emitted row per state, in state order. -/
def writeTables (table : List Row) : List (List (String × Int)) :=
  table.map writeActionRow

/-- The apostrophe character, `'` in the Go source. -/
def aposChar : Char := Char.ofNat 39

/-- The loop body of `parsePattern` from lr/input.go for a single word:
`if len(pat) > 2 && pat[0] != APOS && pat[1] == '='` (with APOS the
apostrophe) split into `(pat[2:], pat[0:1])`, else keep the word whole
with an empty variable.  Returns `(symbol, var)`. -/
def splitPatternWord (pat : String) : String × String :=
  match pat.data with
  | c0 :: c1 :: c2 :: rest =>
    if c0 ≠ aposChar ∧ c1 = '=' then (String.mk (c2 :: rest), String.mk [c0])
    else (pat, "")
  | _ => (pat, "")

/-- `strings.Split(s, " ")`: cut at every single space, keeping empty
components; `acc` accumulates the current component in reverse. -/
def splitSpaceAux : List Char → List Char → List String
  | [], acc => [String.mk acc.reverse]
  | c :: rest, acc =>
    if c = ' ' then String.mk acc.reverse :: splitSpaceAux rest []
    else splitSpaceAux rest (c :: acc)

/-- `strings.Split(patternStr, " ")` from `parsePattern`. -/
def splitSpace (s : String) : List String := splitSpaceAux s.data []

/-- `parsePattern` from lr/input.go: split the pattern string on single
spaces and apply `splitPatternWord` (the loop body) to each word,
collecting `(pattern, vars)`. -/
def parsePattern (patternStr : String) : List String × List String :=
  let pairs := (splitSpace patternStr).map splitPatternWord
  (pairs.map Prod.fst, pairs.map Prod.snd)

/-- `BlockId` from ll/pgen.go (lex mode).  `special` is the Go zero
value `BlockSpecial`. -/
inductive BlockId where
  | special
  | symbol
  | keyword
deriving DecidableEq

/-- `Token` from ll/pgen.go (lex mode): a token name, its literal text
and the block it was declared in. -/
structure LexToken where
  name : String
  value : String
  block : BlockId
deriving DecidableEq

/-- The `name[len(name)-1] == ':'` block-header test of `ReadTokens`. -/
def isHeaderWord (w : String) : Bool :=
  w.data.getLast? = some ':'

/-- The header word with its trailing colon stripped
(`name[:len(name)-1]`). -/
def headerName (w : String) : String :=
  String.mk w.data.dropLast

/-- The `switch name` of `ReadTokens` mapping a block header to its
`BlockId`; `none` models the `log.Fatalf("unknown block %q")` path. -/
def blockOf : String → Option BlockId
  | "specials" => some BlockId.special
  | "symbols" => some BlockId.symbol
  | "keywords" => some BlockId.keyword
  | _ => none

/-- `ReadTokens` from ll/pgen.go, over the whitespace-split word list
produced by the `bufio.ScanWords` scanner, carrying the current block
id (initially the zero value `BlockSpecial`).  A word ending in a colon
switches blocks (`none` on an unknown block name); otherwise the word
and the following word form a token, and a final word with no follower
ends the scan (`if !s.Scan() { break }`) — the one-word and
two-or-more-word patterns below are those two outcomes of the second
`s.Scan()`. -/
def ReadTokens : BlockId → List String → Option (List LexToken)
  | _, [] => some []
  | _, [w] =>
    if isHeaderWord w then
      match blockOf (headerName w) with
      | some b => ReadTokens b []
      | none => none
    else some []
  | id, w :: v :: ws2 =>
    if isHeaderWord w then
      match blockOf (headerName w) with
      | some b => ReadTokens b (v :: ws2)
      | none => none
    else (ReadTokens id ws2).map (fun ts => LexToken.mk w v id :: ts)

theorem ReadTokens_header {w : String} {b : BlockId} (id : BlockId)
    (ws : List String) (hw : isHeaderWord w = true)
    (hb : blockOf (headerName w) = some b) :
    ReadTokens id (w :: ws) = ReadTokens b ws := by
  cases ws with
  | nil => simp [ReadTokens, hw, hb]
  | cons v ws2 => simp [ReadTokens, hw, hb]

theorem ReadTokens_single {n : String} (id : BlockId)
    (hn : isHeaderWord n = false) : ReadTokens id [n] = some [] := by
  simp [ReadTokens, hn]

theorem ReadTokens_pair {n : String} (id : BlockId) (v : String)
    (ws : List String) (hn : isHeaderWord n = false) :
    ReadTokens id (n :: v :: ws) =
      (ReadTokens id ws).map (fun ts => LexToken.mk n v id :: ts) := by
  simp [ReadTokens, hn]

/-- `symM` from ll/pgen.go: a trie node with an accept token name (the
Go zero value is the empty string) and a byte-indexed child map. -/
inductive symM where
  | node : String → List (Char × symM) → symM

/-- The `accept` field of a `symM` node. -/
def symM.accept : symM → String
  | symM.node a _ => a

/-- The `next` child map of a `symM` node. -/
def symM.next : symM → List (Char × symM)
  | symM.node _ n => n

/-- `symM.add` from ll/pgen.go: walk the trie one byte of `input` at a
time, creating missing children as zero-value nodes, and set the
terminal node's accept to `accept`. -/
def symM.add : List Char → String → symM → symM
  | [], acc, symM.node _ next => symM.node acc next
  | c :: rest, acc, symM.node a next =>
    let child := match alGet next c with
      | some ns => ns
      | none => symM.node "" []
    symM.node a (alSet next c (symM.add rest acc child))

/-- Walking the trie from a node along a byte sequence, following the
child map at each step. -/
def symM.walk : List Char → symM → Option symM
  | [], s => some s
  | c :: rest, s =>
    match alGet s.next c with
    | some child => symM.walk rest child
    | none => none

/-- The accept name reached by walking the trie along `v` from `t`. -/
def trieAccept (t : symM) (v : List Char) : Option String :=
  (symM.walk v t).map symM.accept

/-- The trie-building loop of `writeMachine` from ll/pgen.go: starting
from the zero-value root, add the literal of every token in the
`Symbol` block and skip every other token. -/
def trieAddAll (tokens : List LexToken) (t : symM) : symM :=
  tokens.foldl
    (fun sm tok =>
      if tok.block = BlockId.symbol then symM.add tok.value.data tok.name sm
      else sm)
    t

/-- The trie `writeMachine` builds, from the zero-value root
`var sm symM`. -/
def writeMachineTrie (tokens : List LexToken) : symM :=
  trieAddAll tokens (symM.node "" [])

/-- The tail of `lr.Main` from example/lex.go: run the target-language
formatter (`w.Fmt()`, abstracted as `fmtSource`) over the raw buffer;
on failure wrap the error as
`fmt.Errorf("error formatting code: %s\ncode: %s\n", err, w.Raw())`. -/
def lrFormatResult (fmtSource : String → Except String String)
    (raw : String) : Except String String :=
  match fmtSource raw with
  | Except.ok code => Except.ok code
  | Except.error e =>
    Except.error ("error formatting code: " ++ e ++ "\ncode: " ++ raw ++ "\n")

/-- The tail of `lex.Main` from ll/pgen.go: `return w.Fmt()`, the
formatter result is returned unchanged. -/
def lexFormatResult (fmtSource : String → Except String String)
    (raw : String) : Except String String :=
  fmtSource raw

/-- The one-rule grammar `start := t` of the boundary-behavior claim. -/
def gSingle : Grammar := { rules := [Rule.mk "start" "T" ["t"] [""] ""] }

/-- The grammar `S := E; E := a; E := b`, on which the state-discovery
order of `ComputeActions` is observable in the output. -/
def gAmb : Grammar :=
  { rules := [Rule.mk "S" "T" ["E"] [""] "",
              Rule.mk "E" "T" ["a"] [""] "",
              Rule.mk "E" "T" ["b"] [""] ""] }

/-- The grammar `start := A; A := x`, whose FIRST sets retain the
nonterminal seed `A`. -/
def gNtSeed : Grammar :=
  { rules := [Rule.mk "start" "T" ["A"] [""] "",
              Rule.mk "A" "T" ["x"] [""] ""] }

/- ------------------------------------------------------------------ -/
/- Helper lemmas.                                                      -/
/- ------------------------------------------------------------------ -/

theorem perm_pair_cases {α : Type} {a b : α} {l : List α} (h : l.Perm [a, b]) :
    l = [a, b] ∨ l = [b, a] := by
  have hl := h.length_eq
  rcases l with _ | ⟨x, l⟩
  · simp at hl
  rcases l with _ | ⟨y, l⟩
  · simp at hl
  rcases l with _ | ⟨z, l⟩
  · have hx : x = a ∨ x = b := by
      have hm := h.subset (List.mem_cons_self x [y])
      simpa using hm
    rcases hx with rfl | rfl
    · left
      have h2 : [y].Perm [b] := h.cons_inv
      have h3 := List.perm_singleton.mp h2
      simp_all
    · right
      have h2 : [y].Perm [a] := (h.trans (List.Perm.swap x a [])).cons_inv
      have h3 := List.perm_singleton.mp h2
      simp_all
  · simp at hl

theorem alGet_alSet_same {κ α : Type} [DecidableEq κ]
    (m : List (κ × α)) (k : κ) (v : α) : alGet (alSet m k v) k = some v := by
  induction m with
  | nil => simp [alSet, alGet]
  | cons p rest ih =>
    by_cases h : p.1 = k
    · simp [alSet, alGet, h]
    · simp [alSet, alGet, h, ih]

theorem alGet_alSet_ne {κ α : Type} [DecidableEq κ]
    (m : List (κ × α)) {k k' : κ} (v : α) (h : k' ≠ k) :
    alGet (alSet m k v) k' = alGet m k' := by
  have h2 : ¬ (k = k') := fun hk => h hk.symm
  induction m with
  | nil => simp [alSet, alGet, h2]
  | cons p rest ih =>
    by_cases hp : p.1 = k
    · simp [alSet, alGet, hp, h2]
    · simp [alSet, alGet, hp, ih]

theorem alGet_isSome_of_mem_fst {κ α : Type} [DecidableEq κ]
    {m : List (κ × α)} {k : κ} (h : k ∈ m.map Prod.fst) :
    ∃ v, alGet m k = some v := by
  induction m with
  | nil => simp at h
  | cons p rest ih =>
    by_cases hk : p.1 = k
    · exact ⟨p.2, by simp [alGet, hk]⟩
    · have h2 : k ∈ rest.map Prod.fst := by
        simp at h
        rcases h with h | h
        · exact absurd h.symm hk
        · simpa using h
      rcases ih h2 with ⟨v, hv⟩
      exact ⟨v, by simp [alGet, hk, hv]⟩

theorem strLe_total (a b : String) : strLe a b = true ∨ strLe b a = true := by
  unfold strLe
  generalize a.data = as
  generalize b.data = bs
  induction as generalizing bs with
  | nil => left; simp [lexLe]
  | cons x xs ih =>
    cases bs with
    | nil => right; simp [lexLe]
    | cons y ys =>
      rcases Nat.lt_trichotomy x.toNat y.toNat with h | h | h
      · left; simp [lexLe, h]
      · rcases ih ys with h2 | h2
        · left; simp [lexLe, h, h2]
        · right; simp [lexLe, h.symm, h2, Nat.lt_irrefl]
      · right; simp [lexLe, h]

theorem lexLe_trans : ∀ (as bs cs : List Char),
    lexLe as bs = true → lexLe bs cs = true → lexLe as cs = true := by
  intro as
  induction as with
  | nil => intro bs cs h1 h2; simp [lexLe]
  | cons x xs ih =>
    intro bs cs h1 h2
    cases bs with
    | nil => simp [lexLe] at h1
    | cons y ys =>
      cases cs with
      | nil => simp [lexLe] at h2
      | cons z zs =>
        simp only [lexLe] at h1 h2 ⊢
        by_cases hxy : x.toNat < y.toNat
        · by_cases hyz : y.toNat < z.toNat
          · simp [Nat.lt_trans hxy hyz]
          · simp [hyz] at h2
            by_cases hyz2 : y.toNat = z.toNat
            · have hxz : x.toNat < z.toNat := by omega
              simp [hxz]
            · simp [hyz2] at h2
        · simp [hxy] at h1
          by_cases hxy2 : x.toNat = y.toNat
          · simp [hxy2] at h1
            by_cases hyz : y.toNat < z.toNat
            · have hxz : x.toNat < z.toNat := by omega
              simp [hxz]
            · simp [hyz] at h2
              by_cases hyz2 : y.toNat = z.toNat
              · simp [hyz2] at h2
                have hxz : x.toNat = z.toNat := by omega
                have hlt : ¬ x.toNat < z.toNat := by omega
                simp [hlt, hxz, ih ys zs h1 h2]
              · simp [hyz2] at h2
          · simp [hxy2] at h1

theorem strLe_trans {a b c : String}
    (h1 : strLe a b = true) (h2 : strLe b c = true) : strLe a c = true :=
  lexLe_trans a.data b.data c.data h1 h2

theorem mem_insertSorted {x a : String} :
    ∀ {l : List String}, a ∈ insertSorted x l ↔ a = x ∨ a ∈ l := by
  intro l
  induction l with
  | nil => simp [insertSorted]
  | cons y ys ih =>
    unfold insertSorted
    by_cases h : strLe x y = true
    · rw [if_pos h]
      simp
    · rw [if_neg h]
      simp [ih]
      tauto

theorem mem_sortStrings {a : String} :
    ∀ {l : List String}, a ∈ sortStrings l ↔ a ∈ l := by
  intro l
  induction l with
  | nil => simp [sortStrings]
  | cons x xs ih => simp [sortStrings, mem_insertSorted, ih]

theorem sorted_insertSorted {x : String} :
    ∀ {l : List String}, List.Pairwise (fun a b => strLe a b = true) l →
      List.Pairwise (fun a b => strLe a b = true) (insertSorted x l) := by
  intro l hl
  induction l with
  | nil => simp [insertSorted]
  | cons y ys ih =>
    rcases List.pairwise_cons.mp hl with ⟨hy, hys⟩
    unfold insertSorted
    by_cases h : strLe x y = true
    · rw [if_pos h]
      refine List.pairwise_cons.mpr ⟨?_, hl⟩
      intro b hb
      rcases List.mem_cons.mp hb with rfl | hb
      · exact h
      · exact strLe_trans h (hy b hb)
    · rw [if_neg h]
      refine List.pairwise_cons.mpr ⟨?_, ih hys⟩
      intro b hb
      rcases mem_insertSorted.mp hb with hbx | hb
      · rw [hbx]
        rcases strLe_total x y with h2 | h2
        · exact absurd h2 h
        · exact h2
      · exact hy b hb

theorem sorted_sortStrings :
    ∀ (l : List String), List.Pairwise (fun a b => strLe a b = true) (sortStrings l)
  | [] => by simp [sortStrings]
  | x :: xs => sorted_insertSorted (sorted_sortStrings xs)

theorem mapfst_filterMap_lookup (row : Row) :
    ∀ (ks : List String), (∀ k ∈ ks, ∃ v, alGet row k = some v) →
      ((ks.filterMap
          (fun k => (alGet row k).map (fun a => (k, encodeAction a)))).map
        Prod.fst) = ks := by
  intro ks h
  induction ks with
  | nil => simp
  | cons k rest ih =>
    rcases h k (List.mem_cons_self k rest) with ⟨v, hv⟩
    have ih2 := ih (fun k2 hk2 => h k2 (List.mem_cons_of_mem k hk2))
    simp [hv, ih2]

theorem reduceRowsAux_length (g : Grammar) (follow : SymbolMap) :
    ∀ (l : List (ItemSet × Row)) (i : Nat) (cs : List Conflict),
      (reduceRowsAux g follow i l cs).1.length = l.length := by
  intro l
  induction l with
  | nil => intro i cs; simp [reduceRowsAux]
  | cons p rest ih => intro i cs; simp [reduceRowsAux, ih]

/-- A word list that the `ReadTokens` scanner loop consumes exactly:
a sequence of recognized block headers and complete `NAME LITERAL`
pairs, with no dangling final name. -/
inductive CompleteWords : List String → Prop where
  | nil : CompleteWords []
  | header : ∀ (w : String) (ws : List String) (b : BlockId),
      isHeaderWord w = true → blockOf (headerName w) = some b →
      CompleteWords ws → CompleteWords (w :: ws)
  | pair : ∀ (n v : String) (ws : List String),
      isHeaderWord n = false → CompleteWords ws →
      CompleteWords (n :: v :: ws)

theorem readTokens_complete_isSome {ws : List String} (h : CompleteWords ws) :
    ∀ id, (ReadTokens id ws).isSome := by
  induction h with
  | nil => intro id; simp [ReadTokens]
  | header w ws b hw hb hc ih =>
    intro id
    rw [ReadTokens_header id ws hw hb]
    exact ih b
  | pair n v ws hn hc ih =>
    intro id
    rw [ReadTokens_pair id v ws hn]
    rw [Option.isSome_map']
    exact ih id

theorem readTokens_append_dangling {ws : List String} (h : CompleteWords ws) :
    ∀ id (n : String), isHeaderWord n = false →
      ReadTokens id (ws ++ [n]) = ReadTokens id ws := by
  induction h with
  | nil =>
    intro id n hn
    simp only [List.nil_append]
    rw [ReadTokens_single id hn]
    rfl
  | header w ws b hw hb hc ih =>
    intro id n hn
    simp only [List.cons_append]
    rw [ReadTokens_header id (ws ++ [n]) hw hb, ReadTokens_header id ws hw hb]
    exact ih b n hn
  | pair n' v ws hn' hc ih =>
    intro id n hn
    simp only [List.cons_append]
    rw [ReadTokens_pair id v (ws ++ [n]) hn', ReadTokens_pair id v ws hn']
    rw [ih id n hn]

theorem readTokens_split_of_noheader {pre : List String} (h : CompleteWords pre) :
    (∀ w ∈ pre, isHeaderWord w = false) →
    ∀ id (rest : List String),
      ReadTokens id (pre ++ rest) =
        (ReadTokens id pre).bind
          (fun ts => (ReadTokens id rest).map (fun rs => ts ++ rs)) := by
  induction h with
  | nil =>
    intro hnh id rest
    simp only [List.nil_append]
    show ReadTokens id rest = (some []).bind _
    cases ReadTokens id rest with
    | none => simp
    | some rs => simp
  | header w ws b hw hb hc ih =>
    intro hnh id rest
    have hw2 := hnh w (List.mem_cons_self w ws)
    rw [hw] at hw2
    exact absurd hw2 (by simp)
  | pair n v ws hn hc ih =>
    intro hnh id rest
    have hnh2 : ∀ w ∈ ws, isHeaderWord w = false := by
      intro w hw
      exact hnh w (by simp [hw])
    simp only [List.cons_append]
    rw [ReadTokens_pair id v (ws ++ rest) hn, ReadTokens_pair id v ws hn]
    rw [ih hnh2 id rest]
    cases ReadTokens id ws with
    | none => simp
    | some ts =>
      cases ReadTokens id rest with
      | none => simp
      | some rs => simp

theorem readTokens_noheader_blocks : ∀ (ws : List String) (id : BlockId)
    (ts : List LexToken), (∀ w ∈ ws, isHeaderWord w = false) →
    ReadTokens id ws = some ts → ∀ t ∈ ts, t.block = id
  | [], id, ts, hnh, hr, t, ht => by
    have h2 : some ([] : List LexToken) = some ts := hr
    rw [← (Option.some.injEq _ _).mp h2] at ht
    simp at ht
  | [w], id, ts, hnh, hr, t, ht => by
    have hw := hnh w (by simp)
    rw [ReadTokens_single id hw] at hr
    rw [← (Option.some.injEq _ _).mp hr] at ht
    simp at ht
  | n :: v :: ws2, id, ts, hnh, hr, t, ht => by
    have hn := hnh n (by simp)
    rw [ReadTokens_pair id v ws2 hn] at hr
    rcases Option.map_eq_some'.mp hr with ⟨ts2, hts2, hts⟩
    rw [← hts] at ht
    rcases List.mem_cons.mp ht with hteq | ht2
    · rw [hteq]
    · exact readTokens_noheader_blocks ws2 id ts2
        (fun w hw => hnh w (by simp [hw])) hts2 t ht2

theorem trieAccept_add_same : ∀ (v : List Char) (acc : String) (t : symM),
    trieAccept (symM.add v acc t) v = some acc
  | [], acc, symM.node a next => by
    simp [symM.add, trieAccept, symM.walk, symM.accept]
  | c :: rest, acc, symM.node a next => by
    simp only [symM.add, trieAccept, symM.walk, symM.next]
    rw [alGet_alSet_same]
    exact trieAccept_add_same rest acc _

theorem trieAccept_add_preserve : ∀ (v v' : List Char) (acc : String)
    (t : symM) (s : String), v ≠ v' → trieAccept t v = some s →
    trieAccept (symM.add v' acc t) v = some s
  | [], [], acc, t, s, hne, hacc => absurd rfl hne
  | [], c' :: rest', acc, symM.node a next, s, hne, hacc => by
    simpa [symM.add, trieAccept, symM.walk, symM.accept] using hacc
  | c :: rest, [], acc, symM.node a next, s, hne, hacc => by
    simpa [symM.add, trieAccept, symM.walk, symM.next] using hacc
  | c :: rest, c' :: rest', acc, symM.node a next, s, hne, hacc => by
    by_cases hc : c = c'
    · subst hc
      have hrest : rest ≠ rest' := fun hr => hne (by rw [hr])
      simp only [trieAccept, symM.walk, symM.next] at hacc
      match hch : alGet next c with
      | none => rw [hch] at hacc; simp at hacc
      | some child =>
        rw [hch] at hacc
        simp only [symM.add, trieAccept, symM.walk, symM.next, hch]
        rw [alGet_alSet_same]
        exact trieAccept_add_preserve rest rest' acc child s hrest hacc
    · simp only [trieAccept, symM.walk, symM.next] at hacc
      simp only [symM.add, trieAccept, symM.walk, symM.next]
      rw [alGet_alSet_ne next _ hc]
      exact hacc

theorem trieAddAll_cons (tok : LexToken) (rest : List LexToken) (t : symM) :
    trieAddAll (tok :: rest) t =
      trieAddAll rest
        (if tok.block = BlockId.symbol then
          symM.add tok.value.data tok.name t
        else t) := rfl

theorem trieAccept_trieAddAll_preserve :
    ∀ (tokens : List LexToken) (t : symM) (v : List Char) (s : String),
      (∀ tok ∈ tokens, tok.block = BlockId.symbol → tok.value.data ≠ v) →
      trieAccept t v = some s →
      trieAccept (trieAddAll tokens t) v = some s
  | [], t, v, s, hne, hacc => hacc
  | tok :: rest, t, v, s, hne, hacc => by
    rw [trieAddAll_cons]
    by_cases hb : tok.block = BlockId.symbol
    · rw [if_pos hb]
      have hstep : trieAccept (symM.add tok.value.data tok.name t) v = some s :=
        trieAccept_add_preserve v tok.value.data tok.name t s
          (fun hv => hne tok (List.mem_cons_self tok rest) hb hv.symm) hacc
      exact trieAccept_trieAddAll_preserve rest _ v s
        (fun tk htk hbk => hne tk (List.mem_cons_of_mem tok htk) hbk) hstep
    · rw [if_neg hb]
      exact trieAccept_trieAddAll_preserve rest t v s
        (fun tk htk hbk => hne tk (List.mem_cons_of_mem tok htk) hbk) hacc

theorem string_eq_of_data_eq {a b : String} (h : a.data = b.data) : a = b := by
  cases a
  cases b
  exact congrArg String.mk h

theorem trieAddAll_symbol_accept :
    ∀ (tokens : List LexToken) (t : symM),
      ((tokens.filter (fun tk => tk.block = BlockId.symbol)).map
        LexToken.value).Nodup →
      ∀ tok ∈ tokens, tok.block = BlockId.symbol →
        trieAccept (trieAddAll tokens t) tok.value.data = some tok.name
  | [], t, hnd, tok, htok, hb => absurd htok (by simp)
  | h :: rest, t, hnd, tok, htok, hb => by
    rw [trieAddAll_cons]
    by_cases hhb : h.block = BlockId.symbol
    · rw [if_pos hhb]
      have hfil :
          (h :: rest).filter (fun tk => tk.block = BlockId.symbol) =
            h :: rest.filter (fun tk => tk.block = BlockId.symbol) := by
        simp [List.filter_cons, hhb]
      rw [hfil] at hnd
      simp only [List.map_cons, List.nodup_cons] at hnd
      rcases List.mem_cons.mp htok with hteq | ht2
      · subst hteq
        refine trieAccept_trieAddAll_preserve rest _ _ _ ?_
          (trieAccept_add_same tok.value.data tok.name t)
        intro tk htk hbk hdata
        have hval : tk.value = tok.value := string_eq_of_data_eq hdata
        exact hnd.1 (by
          rw [← hval]
          exact List.mem_map_of_mem LexToken.value
            (List.mem_filter.mpr ⟨htk, by simp [hbk]⟩))
      · exact trieAddAll_symbol_accept rest _ hnd.2 tok ht2 hb
    · rw [if_neg hhb]
      have hfil :
          (h :: rest).filter (fun tk => tk.block = BlockId.symbol) =
            rest.filter (fun tk => tk.block = BlockId.symbol) := by
        simp [List.filter_cons, hhb]
      rw [hfil] at hnd
      rcases List.mem_cons.mp htok with hteq | ht2
      · rw [hteq] at hb
        exact absurd hb hhb
      · exact trieAddAll_symbol_accept rest t hnd tok ht2 hb

theorem trieAddAll_filter :
    ∀ (tokens : List LexToken) (t : symM),
      trieAddAll tokens t =
        trieAddAll (tokens.filter (fun tk => tk.block = BlockId.symbol)) t
  | [], t => rfl
  | h :: rest, t => by
    rw [trieAddAll_cons]
    by_cases hhb : h.block = BlockId.symbol
    · have hfil :
          (h :: rest).filter (fun tk => tk.block = BlockId.symbol) =
            h :: rest.filter (fun tk => tk.block = BlockId.symbol) := by
        simp [List.filter_cons, hhb]
      rw [hfil, trieAddAll_cons, if_pos hhb]
      exact trieAddAll_filter rest _
    · have hfil :
          (h :: rest).filter (fun tk => tk.block = BlockId.symbol) =
            rest.filter (fun tk => tk.block = BlockId.symbol) := by
        simp [List.filter_cons, hhb]
      rw [hfil, if_neg hhb]
      exact trieAddAll_filter rest t

theorem alGet_mem {κ α : Type} [DecidableEq κ]
    {m : List (κ × α)} {k : κ} {v : α} (h : alGet m k = some v) :
    (k, v) ∈ m := by
  induction m with
  | nil => simp [alGet] at h
  | cons q rest ih =>
    unfold alGet at h
    by_cases hq : q.1 = k
    · rw [if_pos hq] at h
      have h2 := (Option.some.injEq _ _).mp h
      rw [← hq, ← h2]
      simp
    · rw [if_neg hq] at h
      exact List.mem_cons_of_mem q (ih h)

theorem mem_add_elim {s : SymbolSet} {y x : String}
    (h : x ∈ SymbolSet.add s y) : x ∈ s ∨ x = y := by
  unfold SymbolSet.add at h
  by_cases hy : y ∈ s
  · rw [if_pos hy] at h
    exact Or.inl h
  · rw [if_neg hy] at h
    simpa using h

theorem mem_merge_elim {a b : SymbolSet} {x : String}
    (h : x ∈ (SymbolSet.merge a b).1) : x ∈ a ∨ x ∈ b := by
  unfold SymbolSet.merge at h
  have hgen : ∀ (l : List String) (acc : SymbolSet × Bool),
      x ∈ (l.foldl
        (fun (acc : SymbolSet × Bool) y =>
          if y ∈ acc.1 then acc else (acc.1 ++ [y], true)) acc).1 →
      x ∈ acc.1 ∨ x ∈ l := by
    intro l
    induction l with
    | nil => intro acc h2; exact Or.inl h2
    | cons y ys ih =>
      intro acc h2
      rcases ih _ h2 with h3 | h3
      · have h4 : x ∈ (if y ∈ acc.1 then acc else (acc.1 ++ [y], true)).1 := h3
        by_cases hy : y ∈ acc.1
        · rw [if_pos hy] at h4
          exact Or.inl h4
        · rw [if_neg hy] at h4
          simp at h4
          rcases h4 with h4 | h4
          · exact Or.inl h4
          · exact Or.inr (by simp [h4])
      · exact Or.inr (by simp [h3])
  rcases hgen b (a, false) h with h2 | h2
  · exact Or.inl h2
  · exact Or.inr h2

theorem mem_alSet_elim {κ α : Type} [DecidableEq κ]
    {m : List (κ × α)} {k : κ} {v : α} {p : κ × α}
    (h : p ∈ alSet m k v) : p ∈ m ∨ p = (k, v) := by
  induction m with
  | nil => simpa [alSet] using h
  | cons q rest ih =>
    unfold alSet at h
    by_cases hq : q.1 = k
    · rw [if_pos hq] at h
      rcases List.mem_cons.mp h with h2 | h2
      · exact Or.inr h2
      · exact Or.inl (List.mem_cons_of_mem q h2)
    · rw [if_neg hq] at h
      rcases List.mem_cons.mp h with h2 | h2
      · exact Or.inl (by simp [h2])
      · rcases ih h2 with h3 | h3
        · exact Or.inl (List.mem_cons_of_mem q h3)
        · exact Or.inr h3

/-- The only-terminals invariant on a symbol map. -/
def OnlyTerms (ts : List String) (m : SymbolMap) : Prop :=
  ∀ p ∈ m, ∀ x ∈ p.2, x ∈ ts

theorem onlyTerms_alSet {ts : List String} {m : SymbolMap} {k : String}
    {v : SymbolSet} (hm : OnlyTerms ts m) (hv : ∀ x ∈ v, x ∈ ts) :
    OnlyTerms ts (alSet m k v) := by
  intro p hp x hx
  rcases mem_alSet_elim hp with h | h
  · exact hm p h x hx
  · rw [h] at hx
    exact hv x hx

theorem onlyTerms_firstPass {ts : List String} (keys : List String)
    {m : SymbolMap} (hm : OnlyTerms ts m) :
    OnlyTerms ts (firstPass keys m).1 := by
  unfold firstPass
  have hgen : ∀ (l : List String) (acc : SymbolMap × Bool),
      OnlyTerms ts acc.1 →
      OnlyTerms ts (l.foldl
        (fun (acc : SymbolMap × Bool) s =>
          match alGet acc.1 s with
          | none => acc
          | some f =>
            let inner := f.foldl
              (fun (fc : SymbolSet × Bool) mem =>
                match alGet acc.1 mem with
                | none => fc
                | some other =>
                  let merged := SymbolSet.merge fc.1 other
                  (merged.1, fc.2 || merged.2))
              (f, false)
            (alSet acc.1 s inner.1, acc.2 || inner.2)) acc).1 := by
    intro l
    induction l with
    | nil => intro acc hacc; exact hacc
    | cons s rest ih =>
      intro acc hacc
      refine ih _ ?_
      match hget : alGet acc.1 s with
      | none => simpa [hget] using hacc
      | some f =>
        simp only [hget]
        have hf : ∀ x ∈ f, x ∈ ts :=
          fun x hx => hacc (s, f) (alGet_mem hget) x hx
        have hinner : ∀ (fl : List String) (fc : SymbolSet × Bool),
            (∀ x ∈ fc.1, x ∈ ts) →
            ∀ x ∈ (fl.foldl
              (fun (fc : SymbolSet × Bool) mem =>
                match alGet acc.1 mem with
                | none => fc
                | some other =>
                  let merged := SymbolSet.merge fc.1 other
                  (merged.1, fc.2 || merged.2)) fc).1, x ∈ ts := by
          intro fl
          induction fl with
          | nil => intro fc hfc x hx; exact hfc x hx
          | cons mem fl2 ih2 =>
            intro fc hfc x hx
            refine ih2 _ ?_ x hx
            match hgm : alGet acc.1 mem with
            | none => simpa [hgm] using hfc
            | some other =>
              simp only [hgm]
              intro y hy
              rcases mem_merge_elim hy with h2 | h2
              · exact hfc y h2
              · exact hacc (mem, other) (alGet_mem hgm) y h2
        exact onlyTerms_alSet hacc (hinner f (f, false) hf)
  exact hgen _ (m, false) hm

theorem onlyTerms_firstIter {ts : List String} :
    ∀ (fuel : Nat) (m m' : SymbolMap), firstIter fuel m = some m' →
      OnlyTerms ts m → OnlyTerms ts m'
  | 0, m, m', h, hm => by simp [firstIter] at h
  | fuel + 1, m, m', h, hm => by
    unfold firstIter at h
    by_cases hp : (firstPass (m.map Prod.fst) m).2 = true
    · rw [if_pos hp] at h
      exact onlyTerms_firstIter fuel _ m' h
        (onlyTerms_firstPass (m.map Prod.fst) hm)
    · rw [if_neg hp] at h
      have h2 := (Option.some.injEq _ _).mp h
      rw [← h2]
      exact onlyTerms_firstPass (m.map Prod.fst) hm

theorem closureAux_nodup (g : Grammar) :
    ∀ (fuel : Nat) (is : List Item) (added : List String) (i : Nat),
      is.Nodup → (closureAux g fuel is added i).Nodup
  | 0, is, added, i, h => h
  | fuel + 1, is, added, i, h => by
    unfold closureAux
    split
    · exact h
    · split
      · exact closureAux_nodup g fuel is added (i + 1) h
      · split
        · exact closureAux_nodup g fuel is added (i + 1) h
        · dsimp only
          split
          · exact closureAux_nodup g fuel is added (i + 1) h
          · refine closureAux_nodup g fuel _ _ (i + 1) ?_
            refine List.Nodup.append h ?_ ?_
            · refine List.Nodup.filter _ ?_
              refine List.Nodup.map ?_ (List.Nodup.filter _ (List.nodup_range _))
              intro a b hab
              simpa using hab
            · intro a ha hb
              have := (List.mem_filter.mp hb).2
              simp at this
              exact this ha

theorem itemSet_closure_nodup (g : Grammar) (is : ItemSet) (h : is.Nodup) :
    (ItemSet.Closure g is).Nodup :=
  closureAux_nodup g _ is [] 0 h

theorem itemSet_goto_nodup (g : Grammar) (is : ItemSet) (x : String)
    (h : is.Nodup) : (ItemSet.Goto g is x).Nodup := by
  refine itemSet_closure_nodup g _ ?_
  refine List.Nodup.filterMap ?_ h
  intro a a' b hba hba'
  have hfa : ∀ (c : Item), b ∈ (match c.NextSym g with
      | some sym => if sym = x then some (Item.mk c.ruleIdx (c.pos + 1)) else none
      | none => none : Option Item) → b = Item.mk c.ruleIdx (c.pos + 1) := by
    intro c hc
    split at hc
    · split at hc
      · simp at hc
        exact hc.symm
      · simp at hc
    · simp at hc
  have h1 := hfa a hba
  have h2 := hfa a' hba'
  have h3 : Item.mk a.ruleIdx (a.pos + 1) = Item.mk a'.ruleIdx (a'.pos + 1) :=
    h1 ▸ h2
  cases a
  cases a'
  simp only [Item.mk.injEq] at h3
  simp [h3.1, Nat.add_right_cancel h3.2]

theorem findIdx_none_all_false {α : Type} {p : α → Bool} {l : List α}
    (h : List.findIdx? p l = none) : ∀ x ∈ l, p x = false := by
  intro x hx
  have h2 := List.findIdx?_eq_none_iff.mp h x hx
  simpa using h2

/-- The invariant of the canonical collection: every state is a
duplicate-free item list, and no later state is `Equals` to an earlier
one. -/
def statesDistinct (states : List ItemSet) : Prop :=
  (∀ s ∈ states, s.Nodup) ∧
  List.Pairwise (fun s t => ItemSet.Equals t s = false) states

theorem foldGoto_inv (g : Grammar) (set : ItemSet) (hset : set.Nodup) :
    ∀ (order : List String) (acc : List ItemSet × Row),
      statesDistinct acc.1 →
      statesDistinct ((order.foldl
        (fun (acc : List ItemSet × Row) term =>
          let c := ItemSet.Goto g set term
          if c.isEmpty then acc
          else
            match acc.1.findIdx? (fun oset => ItemSet.Equals c oset) with
            | some j => (acc.1, alSet acc.2 term (Action.Shift j))
            | none => (acc.1 ++ [c], alSet acc.2 term (Action.Shift acc.1.length)))
        acc).1)
  | [], acc, hacc => hacc
  | term :: rest, acc, hacc => by
    rw [List.foldl_cons]
    refine foldGoto_inv g set hset rest _ ?_
    dsimp only
    by_cases hce : (ItemSet.Goto g set term).isEmpty = true
    · rw [if_pos hce]
      exact hacc
    · rw [if_neg hce]
      cases hfi : acc.1.findIdx?
          (fun oset => ItemSet.Equals (ItemSet.Goto g set term) oset) with
      | some j => exact hacc
      | none =>
        dsimp only
        constructor
        · intro s hs
          rcases List.mem_append.mp hs with h2 | h2
          · exact hacc.1 s h2
          · simp at h2
            rw [h2]
            exact itemSet_goto_nodup g set term hset
        · rw [List.pairwise_append]
          refine ⟨hacc.2, List.pairwise_singleton _ _, ?_⟩
          intro a ha b hb
          simp at hb
          rw [hb]
          exact findIdx_none_all_false hfi a ha

theorem buildStatesAux_inv (g : Grammar) (symOrder : List String) :
    ∀ (fuel : Nat) (states : List ItemSet) (rows : List Row) (i : Nat)
      (out : List ItemSet × List Row),
      buildStatesAux g symOrder fuel states rows i = some out →
      statesDistinct states → statesDistinct out.1
  | 0, states, rows, i, out, h, hst => by simp [buildStatesAux] at h
  | fuel + 1, states, rows, i, out, h, hst => by
    unfold buildStatesAux at h
    cases hget : states.get? i with
    | none =>
      rw [hget] at h
      have h2 : (states, rows) = out := (Option.some.injEq _ _).mp h
      rw [← h2]
      exact hst
    | some set =>
      rw [hget] at h
      have hsetnd : set.Nodup := hst.1 set (List.get?_mem hget)
      exact buildStatesAux_inv g symOrder fuel _ _ (i + 1) out h
        (foldGoto_inv g set hsetnd symOrder (states, []) hst)

theorem equals_true_of_ext {a b : ItemSet} (hna : a.Nodup) (hnb : b.Nodup)
    (hext : ∀ it : Item, it ∈ a ↔ it ∈ b) : ItemSet.Equals b a = true := by
  have hperm : b.Perm a :=
    (List.perm_ext_iff_of_nodup hnb hna).mpr (fun it => (hext it).symm)
  unfold ItemSet.Equals
  rw [Bool.and_eq_true]
  constructor
  · simpa using hperm.length_eq
  · rw [List.all_eq_true]
    intro k hk
    simpa using (hext k).mpr hk

/- ------------------------------------------------------------------ -/
/- Claim theorems.                                                     -/
/- ------------------------------------------------------------------ -/

/-- C1.  The claim is violated by the code: `ComputeActions` iterates
`for term := range grammar.symbols` over a Go map, whose iteration
order varies between runs, and that order determines how new states
are numbered.  On the grammar `S := E; E := a; E := b`, the orders
`[S, E, a, b]` and `[S, E, b, a]` — both permutations of the symbol
set, hence both possible runs — produce different emitted action
tables, so two runs on identical input need not produce byte-identical
output.  (`writeTables` itself does sort each row, but the shift
targets and the reduce rows already differ.) -/
theorem computeActions_output_depends_on_symbol_iteration_order :
    (["S", "E", "a", "b"] : List String).Perm gAmb.symbolsList ∧
    (["S", "E", "b", "a"] : List String).Perm gAmb.symbolsList ∧
    (ComputeActions gAmb ["S", "E", "a", "b"] 40).map (fun r => writeTables r.2.1) =
      some [[("E", 1), ("a", 2), ("b", 3)], [("$", 0)], [("$", -1)], [("$", -2)]] ∧
    (ComputeActions gAmb ["S", "E", "b", "a"] 40).map (fun r => writeTables r.2.1) =
      some [[("E", 1), ("a", 3), ("b", 2)], [("$", 0)], [("$", -2)], [("$", -1)]] ∧
    (ComputeActions gAmb ["S", "E", "a", "b"] 40).map (fun r => writeTables r.2.1) ≠
    (ComputeActions gAmb ["S", "E", "b", "a"] 40).map (fun r => writeTables r.2.1) := by
  refine ⟨?_, ?_, by decide, by decide, by decide⟩
  · have h : gAmb.symbolsList = ["S", "E", "a", "b"] := by decide
    rw [h]
  · have h : gAmb.symbolsList = ["S", "E", "a", "b"] := by decide
    rw [h]
    exact List.Perm.cons _ (List.Perm.cons _ (List.Perm.swap "a" "b" []))

/-- C3.  On the grammar with the single rule `start := t`,
`ComputeActions` yields exactly two states — the closure of the start
item and its goto over `t` — and the only table entries are a shift to
state 1 on `t` in state 0 and a reduce by rule 0 on `$` in state 1,
whatever order the symbol map happens to be iterated in. -/
theorem single_terminal_rule_gives_two_states_shift_reduce
    (symOrder : List String) (h : symOrder.Perm gSingle.symbolsList) :
    ComputeActions gSingle symOrder 20 =
      some ([[Item.mk 0 0], [Item.mk 0 1]],
            [[("t", Action.Shift 1)], [("$", Action.Reduce 0)]],
            []) := by
  have hs : gSingle.symbolsList = ["start", "t"] := by decide
  rw [hs] at h
  rcases perm_pair_cases h with h1 | h1 <;> subst h1 <;> decide

/-- C3 witness: the insertion-order enumeration itself. -/
theorem single_terminal_rule_gives_two_states_shift_reduce_witness :
    ComputeActions gSingle ["start", "t"] 20 =
      some ([[Item.mk 0 0], [Item.mk 0 1]],
            [[("t", Action.Shift 1)], [("$", Action.Reduce 0)]],
            []) :=
  single_terminal_rule_gives_two_states_shift_reduce ["start", "t"]
    (by have hs : gSingle.symbolsList = ["start", "t"] := by decide
        rw [hs])

/-- C2 counterexample.  On `start := A; A := x` the fixpoint of
`Grammar.First` completes (the map is stable), yet `first["start"]`
still contains the nonterminal `A`: the pre-closure seeds are merged
from, but never removed.  So a final FIRST set can contain a
nonterminal, contradicting the claim. -/
theorem first_retains_nonterminal_seed_cex :
    gNtSeed.First 20 =
      some [("x", ["x"]), ("start", ["A", "x"]), ("A", ["x"])] ∧
    alGet [("x", ["x"]), ("start", ["A", "x"]), ("A", ["x"])] "start" =
      some ["A", "x"] ∧
    "A" ∈ (["A", "x"] : List String) ∧
    "A" ∈ gNtSeed.CollectSymbols.2.2 ∧
    "A" ∉ gNtSeed.terminalsList := by
  refine ⟨by decide, by decide, by decide, by decide, by decide⟩

/-- C2 (amended).  The FIRST fixpoint only merges sets and never
removes the pre-closure seeds, so a final FIRST set contains only
terminals exactly when the seeds were terminal to begin with: if every
rule's first pattern symbol is a terminal, then after `Grammar.First`
completes every member of every FIRST set is a terminal. -/
theorem first_only_terminals_when_rule_heads_terminal
    (g : Grammar) (fuel : Nat) (m : SymbolMap)
    (hheads : ∀ r ∈ g.rules, r.pattern.headD "" ∈ g.terminalsList)
    (hm : g.First fuel = some m) :
    ∀ p ∈ m, ∀ x ∈ p.2, x ∈ g.terminalsList := by
  unfold Grammar.First at hm
  by_cases hemp : g.rules.any (fun r => r.pattern.isEmpty) = true
  · rw [if_pos hemp] at hm
    exact absurd hm (by simp)
  · rw [if_neg hemp] at hm
    simp only [] at hm
    have hseed : OnlyTerms g.terminalsList
        (g.terminalsList.foldl
          (fun (m : SymbolMap) t => alSet m t (SymbolSet.add [] t)) []) := by
      have hgen : ∀ (l : List String) (acc : SymbolMap),
          (∀ t ∈ l, t ∈ g.terminalsList) → OnlyTerms g.terminalsList acc →
          OnlyTerms g.terminalsList
            (l.foldl (fun (m : SymbolMap) t => alSet m t (SymbolSet.add [] t))
              acc) := by
        intro l
        induction l with
        | nil => intro acc hl hacc; exact hacc
        | cons t rest ih =>
          intro acc hl hacc
          refine ih _ (fun u hu => hl u (by simp [hu])) ?_
          refine onlyTerms_alSet hacc ?_
          intro x hx
          rcases mem_add_elim hx with h | h
          · simp at h
          · rw [h]
            exact hl t (by simp)
      exact hgen g.terminalsList [] (fun t ht => ht)
        (fun p hp => absurd hp (by simp))
    have hm0 : OnlyTerms g.terminalsList
        (g.rules.foldl
          (fun (m : SymbolMap) r =>
            let set := (alGet m r.symbol).getD []
            alSet m r.symbol (SymbolSet.add set (r.pattern.headD "")))
          (g.terminalsList.foldl
            (fun (m : SymbolMap) t => alSet m t (SymbolSet.add [] t)) [])) := by
      have hgen2 : ∀ (rl : List Rule) (acc : SymbolMap),
          (∀ r ∈ rl, r.pattern.headD "" ∈ g.terminalsList) →
          OnlyTerms g.terminalsList acc →
          OnlyTerms g.terminalsList
            (rl.foldl
              (fun (m : SymbolMap) r =>
                let set := (alGet m r.symbol).getD []
                alSet m r.symbol (SymbolSet.add set (r.pattern.headD "")))
              acc) := by
        intro rl
        induction rl with
        | nil => intro acc hl hacc; exact hacc
        | cons r rest ih =>
          intro acc hl hacc
          refine ih _ (fun u hu => hl u (by simp [hu])) ?_
          simp only []
          refine onlyTerms_alSet hacc ?_
          intro x hx
          rcases mem_add_elim hx with h | h
          · match halg : alGet acc r.symbol with
            | none => rw [halg] at h; simp at h
            | some fset =>
              rw [halg] at h
              exact hacc (r.symbol, fset) (alGet_mem halg) x h
          · rw [h]
            exact hl r (by simp)
      exact hgen2 g.rules _ hheads hseed
    exact onlyTerms_firstIter fuel _ m hm hm0

/-- C2 witness: `start := t` has a terminal rule head, and its final
FIRST map contains only the terminal `t`. -/
theorem first_only_terminals_when_rule_heads_terminal_witness :
    gSingle.First 20 = some [("t", ["t"]), ("start", ["t"])] ∧
    "t" ∈ gSingle.terminalsList :=
  ⟨by decide,
   first_only_terminals_when_rule_heads_terminal gSingle 20
     [("t", ["t"]), ("start", ["t"])] (by decide) (by decide)
     ("start", ["t"]) (by decide) "t" (by decide)⟩

/-- C7 counterexample.  `parsePattern` splits `1=x` into symbol `x`
with variable `1`, because the code only tests
`len(pat) > 2 && pat[0] != '\x27' && pat[1] == '='` — it never checks
that the first byte is an ASCII letter.  Under the claim, `1=x` is
neither of shape letter-`=`-rest nor apostrophe-led, so it should have
been kept whole with an empty variable. -/
theorem parsePattern_splits_nonletter_cex :
    parsePattern "1=x" = (["x"], ["1"]) ∧
    Char.isAlpha '1' = false ∧
    "1=x".data.head? ≠ some aposChar ∧
    parsePattern "1=x" ≠ (["1=x"], [""]) := by
  refine ⟨by decide, by decide, by decide, by decide⟩

/-- C7 (amended).  For every word of the space-split pattern string:
a word of at least three characters whose first character is anything
but an apostrophe (not only an ASCII letter) and whose second
character is `=` is split into its first character as the variable and
the rest as the symbol; a word led by an apostrophe, a word of at most
two characters, and a word whose second character is not `=` are kept
whole with an empty variable; and `parsePattern` applies exactly this
split to each word positionally. -/
theorem parsePattern_split_behavior :
    (∀ patternStr i w, (splitSpace patternStr).get? i = some w →
       (parsePattern patternStr).1.get? i = some (splitPatternWord w).1 ∧
       (parsePattern patternStr).2.get? i = some (splitPatternWord w).2) ∧
    (∀ w c0 c1 c2 rest, w.data = c0 :: c1 :: c2 :: rest → c0 ≠ aposChar →
       c1 = '=' →
       splitPatternWord w = (String.mk (c2 :: rest), String.mk [c0])) ∧
    (∀ w, w.data.head? = some aposChar → splitPatternWord w = (w, "")) ∧
    (∀ w, w.data.length ≤ 2 ∨ w.data.get? 1 ≠ some '=' →
       splitPatternWord w = (w, "")) := by
  refine ⟨?_, ?_, ?_, ?_⟩
  · intro patternStr i w h
    have h2 : (splitSpace patternStr)[i]? = some w := by
      rw [← List.get?_eq_getElem?]
      exact h
    constructor
    · simp [parsePattern, List.get?_eq_getElem?, List.getElem?_map, h2]
    · simp [parsePattern, List.get?_eq_getElem?, List.getElem?_map, h2]
  · intro w c0 c1 c2 rest hdata hne heq
    simp [splitPatternWord, hdata, hne, heq]
  · intro w h
    match hd : w.data with
    | [] => simp [hd] at h
    | [c0] => simp [splitPatternWord, hd]
    | [c0, c1] => simp [splitPatternWord, hd]
    | c0 :: c1 :: c2 :: rest =>
      have hc0 : c0 = aposChar := by
        simp [hd] at h
        exact h
      simp [splitPatternWord, hd, hc0]
  · intro w h
    match hd : w.data with
    | [] => simp [splitPatternWord, hd]
    | [c0] => simp [splitPatternWord, hd]
    | [c0, c1] => simp [splitPatternWord, hd]
    | c0 :: c1 :: c2 :: rest =>
      rcases h with h | h
      · simp [hd] at h
      · have hc1 : c1 ≠ '=' := by
          simp [hd] at h
          exact h
        simp [splitPatternWord, hd, hc1]

/-- C7 witness: on the pattern `A=b 'q x` the first word splits into
variable `A` and symbol `b`, the apostrophe-led word and the short word
stay whole. -/
theorem parsePattern_split_behavior_witness :
    ((parsePattern "A=b 'q x").1.get? 0 = some (splitPatternWord "A=b").1 ∧
     (parsePattern "A=b 'q x").2.get? 0 = some (splitPatternWord "A=b").2) ∧
    splitPatternWord "A=b" = ("b", "A") ∧
    splitPatternWord "'q" = ("'q", "") ∧
    splitPatternWord "x" = ("x", "") :=
  ⟨parsePattern_split_behavior.1 "A=b 'q x" 0 "A=b" (by decide),
   parsePattern_split_behavior.2.1 "A=b" 'A' '=' 'b' [] (by decide) (by decide) rfl,
   parsePattern_split_behavior.2.2.1 "'q" (by decide),
   parsePattern_split_behavior.2.2.2 "x" (Or.inl (by decide))⟩

/-- C9 (amended).  When the formatter fails, `lr.Main` wraps the error
as `error formatting code: ...\ncode: <raw buffer>\n`, so in lr mode
the diagnostic contains the raw unformatted buffer; `lex.Main` returns
the formatter error unchanged, so in lex mode it does not. -/
theorem formatter_failure_diagnostics
    (fmtSource : String → Except String String) (raw e : String)
    (h : fmtSource raw = Except.error e) :
    lrFormatResult fmtSource raw =
      Except.error ("error formatting code: " ++ e ++ "\ncode: " ++ raw ++ "\n") ∧
    raw.data <:+: ("error formatting code: " ++ e ++ "\ncode: " ++ raw ++ "\n").data ∧
    lexFormatResult fmtSource raw = Except.error e := by
  refine ⟨by simp [lrFormatResult, h], ?_, by simp [lexFormatResult, h]⟩
  refine ⟨("error formatting code: " ++ e ++ "\ncode: ").data, "\n".data, ?_⟩
  simp [String.data_append]

/-- C9 witness. -/
theorem formatter_failure_diagnostics_witness :
    lrFormatResult (fun _ => Except.error "boom") "BUF" =
      Except.error ("error formatting code: " ++ "boom" ++ "\ncode: " ++ "BUF" ++ "\n") ∧
    "BUF".data <:+: ("error formatting code: " ++ "boom" ++ "\ncode: " ++ "BUF" ++ "\n").data ∧
    lexFormatResult (fun _ => Except.error "boom") "BUF" = Except.error "boom" :=
  formatter_failure_diagnostics (fun _ => Except.error "boom") "BUF" "boom" rfl

/-- C9 counterexample.  In lex mode a formatter failure is returned as
`w.Fmt()` produced it; the raw buffer (here `RAWCODE`) does not occur
in the diagnostic, contradicting the claim for lex-mode runs. -/
theorem lex_formatter_failure_omits_raw_cex :
    lexFormatResult (fun _ => Except.error "3:1: expected declaration") "RAWCODE" =
      Except.error "3:1: expected declaration" ∧
    ¬ ("RAWCODE".data <:+: "3:1: expected declaration".data) := by
  refine ⟨rfl, fun h => ?_⟩
  have hR : 'R' ∈ "RAWCODE".data := by decide
  have hin := h.subset hR
  revert hin
  decide

/-- C4.  When the reduce phase installs a `Reduce` into an occupied
entry, a conflict diagnostic carrying the state index, the input
terminal, the occupying action and the reducing rule is appended, and
the `Reduce` overwrites the entry; and the reduce phase is total — it
always processes every state row to completion (the conflict is never
fatal). -/
theorem reduce_conflict_diagnostic_overwrite_nonfatal :
    (∀ (i ruleIdx : Nat) (term : String) (row : Row) (cs : List Conflict)
       (prev : Action), alGet row term = some prev →
       installReduce i ruleIdx term (row, cs) =
         (alSet row term (Action.Reduce ruleIdx),
          cs ++ [Conflict.mk i term prev ruleIdx]) ∧
       alGet (installReduce i ruleIdx term (row, cs)).1 term =
         some (Action.Reduce ruleIdx)) ∧
    (∀ (g : Grammar) (follow : SymbolMap) (states : List ItemSet)
       (rows : List Row),
       (reducePhase g follow states rows).1.length = (states.zip rows).length) := by
  constructor
  · intro i ruleIdx term row cs prev h
    constructor
    · simp [installReduce, h]
    · simp [installReduce, h, alGet_alSet_same]
  · intro g follow states rows
    exact reduceRowsAux_length g follow (states.zip rows) 0 []

/-- C4 witness: a shift/reduce conflict on `$` in state 1. -/
theorem reduce_conflict_diagnostic_overwrite_nonfatal_witness :
    (installReduce 1 2 "$" ([("$", Action.Shift 3)], []) =
       (alSet [("$", Action.Shift 3)] "$" (Action.Reduce 2),
        [] ++ [Conflict.mk 1 "$" (Action.Shift 3) 2]) ∧
     alGet (installReduce 1 2 "$" ([("$", Action.Shift 3)], [])).1 "$" =
       some (Action.Reduce 2)) ∧
    (reducePhase gSingle [] [[Item.mk 0 0]] [[]]).1.length =
      ([[Item.mk 0 0]].zip ([[]] : List Row)).length :=
  ⟨reduce_conflict_diagnostic_overwrite_nonfatal.1 1 2 "$"
      [("$", Action.Shift 3)] [] (Action.Shift 3) (by decide),
   reduce_conflict_diagnostic_overwrite_nonfatal.2 gSingle [] [[Item.mk 0 0]] [[]]⟩

/-- C6.  `writeTables` emits one row per state in state order; each
emitted row lists its terminals in sorted order, covers exactly the
entries of the state's action row, and encodes `Shift s` as the
non-negative integer `s` and `Reduce r` as the negation of the rule's
index in the grammar's rule list. -/
theorem writeTables_rows_in_state_order_sorted_encoded (table : List Row) :
    (writeTables table).length = table.length ∧
    (∀ s, encodeAction (Action.Shift s) = Int.ofNat s) ∧
    (∀ r, encodeAction (Action.Reduce r) = -(Int.ofNat r)) ∧
    ∀ i row out, table.get? i = some row →
      (writeTables table).get? i = some out →
      out.map Prod.fst = sortStrings (row.map Prod.fst) ∧
      List.Pairwise (fun a b => strLe a b = true) (out.map Prod.fst) ∧
      (∀ kv ∈ out, (alGet row kv.1).map encodeAction = some kv.2) ∧
      (∀ k ∈ row.map Prod.fst, k ∈ out.map Prod.fst) := by
  refine ⟨by simp [writeTables], fun s => rfl, fun r => rfl, ?_⟩
  intro i row out hrow hout
  have hrow2 : table[i]? = some row := by
    rw [← List.get?_eq_getElem?]
    exact hrow
  have hout2 : out = writeActionRow row := by
    have : (writeTables table)[i]? = some (writeActionRow row) := by
      simp [writeTables, List.getElem?_map, hrow2]
    rw [← List.get?_eq_getElem?] at this
    rw [hout] at this
    exact (Option.some.injEq _ _).mp this
  subst hout2
  have hkeys : ∀ k ∈ sortStrings (row.map Prod.fst), ∃ v, alGet row k = some v := by
    intro k hk
    exact alGet_isSome_of_mem_fst (mem_sortStrings.mp hk)
  have hmapfst : (writeActionRow row).map Prod.fst = sortStrings (row.map Prod.fst) :=
    mapfst_filterMap_lookup row (sortStrings (row.map Prod.fst)) hkeys
  refine ⟨hmapfst, ?_, ?_, ?_⟩
  · rw [hmapfst]
    exact sorted_sortStrings (row.map Prod.fst)
  · intro kv hkv
    rcases List.mem_filterMap.mp hkv with ⟨k, _, hk2⟩
    rcases Option.map_eq_some'.mp hk2 with ⟨a, ha, hkv2⟩
    rw [← hkv2]
    simp [ha]
  · intro k hk
    rw [hmapfst]
    exact mem_sortStrings.mpr hk

/-- C6 witness: a row with a shift and a reduce, emitted sorted. -/
theorem writeTables_rows_in_state_order_sorted_encoded_witness :
    (writeTables [[("b", Action.Shift 1), ("a", Action.Reduce 2)]]).length = 1 ∧
    ([("a", (-2 : Int)), ("b", (1 : Int))].map Prod.fst =
       sortStrings ([("b", Action.Shift 1), ("a", Action.Reduce 2)].map Prod.fst) ∧
     List.Pairwise (fun a b => strLe a b = true)
       ([("a", (-2 : Int)), ("b", (1 : Int))].map Prod.fst) ∧
     (∀ kv ∈ [("a", (-2 : Int)), ("b", (1 : Int))],
        (alGet [("b", Action.Shift 1), ("a", Action.Reduce 2)] kv.1).map encodeAction =
          some kv.2) ∧
     (∀ k ∈ [("b", Action.Shift 1), ("a", Action.Reduce 2)].map Prod.fst,
        k ∈ [("a", (-2 : Int)), ("b", (1 : Int))].map Prod.fst)) :=
  ⟨(writeTables_rows_in_state_order_sorted_encoded
      [[("b", Action.Shift 1), ("a", Action.Reduce 2)]]).1.trans (by decide),
   (writeTables_rows_in_state_order_sorted_encoded
      [[("b", Action.Shift 1), ("a", Action.Reduce 2)]]).2.2.2 0
      [("b", Action.Shift 1), ("a", Action.Reduce 2)]
      [("a", (-2 : Int)), ("b", (1 : Int))] (by decide) (by decide)⟩

/-- C10.  `ReadTokens` never fails on a word list whose last block ends
with a dangling `NAME`: appending a final non-header word to a
completely-consumed word list changes nothing (the dangling name is
silently dropped), a completely-consumed word list always yields
`some` tokens, a header-free complete prefix contributes its pairs
independently of the remainder, and every pair read while the block id
is still the initial `BlockSpecial` — in particular every pair before
the first block header — is classified `special`. -/
theorem readTokens_dangling_name_and_special_block :
    (∀ (id : BlockId) (ws : List String), CompleteWords ws →
       (ReadTokens id ws).isSome) ∧
    (∀ (id : BlockId) (ws : List String) (n : String), CompleteWords ws →
       isHeaderWord n = false → ReadTokens id (ws ++ [n]) = ReadTokens id ws) ∧
    (∀ (pre rest : List String) (id : BlockId), CompleteWords pre →
       (∀ w ∈ pre, isHeaderWord w = false) →
       ReadTokens id (pre ++ rest) =
         (ReadTokens id pre).bind
           (fun ts => (ReadTokens id rest).map (fun rs => ts ++ rs))) ∧
    (∀ (ws : List String) (ts : List LexToken),
       (∀ w ∈ ws, isHeaderWord w = false) →
       ReadTokens BlockId.special ws = some ts →
       ∀ t ∈ ts, t.block = BlockId.special) :=
  ⟨fun id ws h => readTokens_complete_isSome h id,
   fun id ws n h hn => readTokens_append_dangling h id n hn,
   fun pre rest id h hnh => readTokens_split_of_noheader h hnh id rest,
   fun ws ts hnh hr => readTokens_noheader_blocks ws BlockId.special ts hnh hr⟩

/-- C10 witness: the file `EOF $ symbols: Semi ;` with a dangling final
name `Equals`. -/
theorem readTokens_dangling_name_and_special_block_witness :
    (ReadTokens BlockId.special ["EOF", "$", "symbols:", "Semi", ";"]).isSome ∧
    ReadTokens BlockId.special
        (["EOF", "$", "symbols:", "Semi", ";"] ++ ["Equals"]) =
      ReadTokens BlockId.special ["EOF", "$", "symbols:", "Semi", ";"] ∧
    ReadTokens BlockId.special (["EOF", "$"] ++ ["symbols:", "Semi", ";"]) =
      (ReadTokens BlockId.special ["EOF", "$"]).bind
        (fun ts =>
          (ReadTokens BlockId.special ["symbols:", "Semi", ";"]).map
            (fun rs => ts ++ rs)) ∧
    (LexToken.mk "EOF" "$" BlockId.special ∈
        [LexToken.mk "EOF" "$" BlockId.special] →
      (LexToken.mk "EOF" "$" BlockId.special).block = BlockId.special) := by
  have hc : CompleteWords ["EOF", "$", "symbols:", "Semi", ";"] :=
    CompleteWords.pair "EOF" "$" ["symbols:", "Semi", ";"] (by decide)
      (CompleteWords.header "symbols:" ["Semi", ";"] BlockId.symbol
        (by decide) (by decide)
        (CompleteWords.pair "Semi" ";" [] (by decide) CompleteWords.nil))
  have hc2 : CompleteWords ["EOF", "$"] :=
    CompleteWords.pair "EOF" "$" [] (by decide) CompleteWords.nil
  refine ⟨?_, ?_, ?_, ?_⟩
  · exact readTokens_dangling_name_and_special_block.1 BlockId.special _ hc
  · exact readTokens_dangling_name_and_special_block.2.1 BlockId.special _
      "Equals" hc (by decide)
  · exact readTokens_dangling_name_and_special_block.2.2.1 ["EOF", "$"]
      ["symbols:", "Semi", ";"] BlockId.special hc2 (by decide)
  · intro hm
    exact readTokens_dangling_name_and_special_block.2.2.2 ["EOF", "$"]
      [LexToken.mk "EOF" "$" BlockId.special] (by decide) (by decide) _ hm

/-- C8 counterexample.  With two `Symbol` tokens sharing the literal
`x`, `symM.add` overwrites the accept of the shared terminal node, so
walking the trie along the first token's literal reaches the second
token's name, not its own — the claim's universal statement fails. -/
theorem symTrie_duplicate_literal_cex :
    LexToken.mk "A" "x" BlockId.symbol ∈
      [LexToken.mk "A" "x" BlockId.symbol,
       LexToken.mk "B" "x" BlockId.symbol] ∧
    trieAccept
        (writeMachineTrie
          [LexToken.mk "A" "x" BlockId.symbol,
           LexToken.mk "B" "x" BlockId.symbol])
        "x".data = some "B" ∧
    trieAccept
        (writeMachineTrie
          [LexToken.mk "A" "x" BlockId.symbol,
           LexToken.mk "B" "x" BlockId.symbol])
        "x".data ≠ some "A" := by
  refine ⟨by decide, by decide, by decide⟩

/-- C8 (amended).  Provided no two `Symbol` tokens share a literal,
the trie built by `writeMachine` accepts exactly the `Symbol` tokens:
walking from the root along the bytes of a `Symbol` token's literal
reaches a node whose accept is that token's name, and `Special` and
`Keyword` tokens add nothing — the trie equals the one built from the
`Symbol` tokens alone.  (Without the distinctness proviso the last
added token's name wins, as the counterexample shows.) -/
theorem symTrie_contains_symbol_tokens (tokens : List LexToken)
    (hnd : ((tokens.filter (fun tk => tk.block = BlockId.symbol)).map
      LexToken.value).Nodup) :
    (∀ tok ∈ tokens, tok.block = BlockId.symbol →
       trieAccept (writeMachineTrie tokens) tok.value.data = some tok.name) ∧
    writeMachineTrie tokens =
      writeMachineTrie (tokens.filter (fun tk => tk.block = BlockId.symbol)) :=
  ⟨fun tok htok hb =>
     trieAddAll_symbol_accept tokens (symM.node "" []) hnd tok htok hb,
   trieAddAll_filter tokens (symM.node "" [])⟩

/-- C8 witness: symbols `=` and `==` plus a keyword; the keyword adds
nothing and both symbol literals reach their own names. -/
theorem symTrie_contains_symbol_tokens_witness :
    trieAccept
        (writeMachineTrie
          [LexToken.mk "Eq" "=" BlockId.symbol,
           LexToken.mk "EqEq" "==" BlockId.symbol,
           LexToken.mk "For" "for" BlockId.keyword])
        "=".data = some "Eq" ∧
    trieAccept
        (writeMachineTrie
          [LexToken.mk "Eq" "=" BlockId.symbol,
           LexToken.mk "EqEq" "==" BlockId.symbol,
           LexToken.mk "For" "for" BlockId.keyword])
        "==".data = some "EqEq" ∧
    writeMachineTrie
        [LexToken.mk "Eq" "=" BlockId.symbol,
         LexToken.mk "EqEq" "==" BlockId.symbol,
         LexToken.mk "For" "for" BlockId.keyword] =
      writeMachineTrie
        ([LexToken.mk "Eq" "=" BlockId.symbol,
          LexToken.mk "EqEq" "==" BlockId.symbol,
          LexToken.mk "For" "for" BlockId.keyword].filter
          (fun tk => tk.block = BlockId.symbol)) :=
  ⟨(symTrie_contains_symbol_tokens _ (by decide)).1
      (LexToken.mk "Eq" "=" BlockId.symbol) (by decide) rfl,
   (symTrie_contains_symbol_tokens _ (by decide)).1
      (LexToken.mk "EqEq" "==" BlockId.symbol) (by decide) rfl,
   (symTrie_contains_symbol_tokens _ (by decide)).2⟩

/-- C5.  The canonical collection built by `ComputeActions` contains
no two extensionally equal item sets: a goto result is appended only
when `findIdx?` finds no `Equals` state, so distinct indices always
hold item-sets that differ in at least one item. -/
theorem canonical_states_pairwise_not_extensionally_equal
    (g : Grammar) (symOrder : List String) (fuel : Nat)
    (states : List ItemSet) (rows : List Row) (conflicts : List Conflict)
    (h : ComputeActions g symOrder fuel = some (states, rows, conflicts)) :
    List.Pairwise (fun s t => ¬ (∀ it : Item, it ∈ s ↔ it ∈ t)) states := by
  unfold ComputeActions at h
  cases hr0 : g.rules.get? 0 with
  | none => rw [hr0] at h; exact Option.noConfusion h
  | some r0 =>
    rw [hr0] at h
    dsimp only at h
    cases hf : g.First fuel with
    | none => rw [hf] at h; exact Option.noConfusion h
    | some first =>
      rw [hf] at h
      dsimp only at h
      cases hfl : g.Follow first fuel with
      | none => rw [hfl] at h; exact Option.noConfusion h
      | some follow =>
        rw [hfl] at h
        dsimp only at h
        cases hbs : buildStatesAux g symOrder fuel
            [ItemSet.Closure g [Item.mk 0 0]] [] 0 with
        | none => rw [hbs] at h; exact Option.noConfusion h
        | some sr =>
          rw [hbs] at h
          dsimp only at h
          have h2 := (Option.some.injEq _ _).mp h
          have hstates : sr.1 = states := congrArg Prod.fst h2
          have hinit : statesDistinct [ItemSet.Closure g [Item.mk 0 0]] := by
            constructor
            · intro s hs
              simp at hs
              rw [hs]
              exact itemSet_closure_nodup g _ (List.nodup_singleton _)
            · exact List.pairwise_singleton _ _
          have hinv := buildStatesAux_inv g symOrder fuel _ _ 0 sr hbs hinit
          rw [← hstates]
          refine List.Pairwise.imp_of_mem ?_ hinv.2
          intro a b ha hb hR hext
          have htrue := equals_true_of_ext (hinv.1 a ha) (hinv.1 b hb) hext
          rw [hR] at htrue
          exact Bool.false_ne_true htrue

/-- C5 witness: the two states of the `start := t` automaton are not
extensionally equal. -/
theorem canonical_states_pairwise_not_extensionally_equal_witness :
    List.Pairwise (fun s t => ¬ (∀ it : Item, it ∈ s ↔ it ∈ t))
      [[Item.mk 0 0], [Item.mk 0 1]] :=
  canonical_states_pairwise_not_extensionally_equal gSingle ["start", "t"] 20
    [[Item.mk 0 0], [Item.mk 0 1]]
    [[("t", Action.Shift 1)], [("$", Action.Reduce 0)]] [] (by decide)

end Gen
